import Mathlib

/-!
# Verification of the bfx-api-node-models data-definition transform engine

Shallow embedding of the repository's entity models (LedgerEntry,
TradingTicker, FundingLoan) and of the shared data-definition-driven
transform engine (normalization, serialization, unserialization and the
validation pipeline).  The shared `Model` base class is not among the
provided sources, so the engine itself is modelled from the specification;
the entity-specific parts (field tables, the LedgerEntry derived `wallet`
computation, the TradingTicker `base`/`quote` accessors) are translated
directly from the source files.
-/

namespace Bfx

/-- A loosely-typed scalar value as it appears in wire arrays and records:
`null`/`undefined`, a number, or a string.  Numbers are modelled as
rationals since the engine only copies and compares them. -/
inductive Value where
  | null : Value
  | num : Rat → Value
  | str : String → Value
deriving DecidableEq, Repr

/-- One input item: either a positional array or a named-field object. -/
inductive Item where
  | arr : List Value → Item
  | obj : List (String × Value) → Item
deriving DecidableEq, Repr

/-- Modelled from the spec: the input shapes accepted by the Normalizer
(§4.2) — `null`/`undefined`, one item, or a batch of items. -/
inductive Input where
  | null0 : Input
  | one : Item → Input
  | many : List Item → Input
deriving DecidableEq, Repr

/-- A Field Definition Table: field name paired with its wire position,
or `none` for the absence marker (object-only / derived field). -/
abbrev FieldDef : Type := List (String × Option Nat)

/-- A canonical named-field record, in field-table order. -/
abbrev Record : Type := List (String × Value)

/-- First-match lookup in an association list keyed by strings. -/
def lookupOpt {α : Type} (l : List (String × α)) (k : String) : Option α :=
  match l with
  | [] => none
  | (n, v) :: rest => if n = k then some v else lookupOpt rest k

/-- Value of field `k` in a record; unset fields read as `null`. -/
def lookupKey (r : Record) (k : String) : Value :=
  (lookupOpt r k).getD Value.null

/-- The all-unset canonical record for a field table. -/
def emptyRecord (fields : FieldDef) : Record :=
  fields.map (fun f => (f.1, Value.null))

/-- Modelled from the spec: per-field extraction (§4.2).  For positional
input a field with a defined position reads `input[position]` (missing
slots read as unset) and an absence-marked field is left unset; for
named-object input the field is copied by name. -/
def extract (it : Item) (name : String) (pos : Option Nat) : Value :=
  match it with
  | Item.arr xs =>
    match pos with
    | some p => xs.getD p Value.null
    | none => Value.null
  | Item.obj kvs => (lookupOpt kvs name).getD Value.null

/-- Modelled from the spec: per-item normalization (§4.2) — extract every
declared field of the table from the input item. -/
def normalizeItem (fields : FieldDef) (it : Item) : Record :=
  fields.map (fun f => (f.1, extract it f.1 f.2))

/-- Modelled from the spec: the Normalizer (§4.2).  `null`/`undefined`
top-level input yields a single empty canonical record; a single item
yields one record; a batch yields one record per item, in order. -/
def normalize (fields : FieldDef) : Input → List Record
  | Input.null0 => [emptyRecord fields]
  | Input.one it => [normalizeItem fields it]
  | Input.many its => its.map (normalizeItem fields)

/-- One past the largest mapped wire position of a field table. -/
def wireLen (fields : FieldDef) : Nat :=
  fields.foldr
    (fun f acc =>
      match f.2 with
      | some p => max (p + 1) acc
      | none => acc) 0

/-- The first field name mapped to wire position `p`, if any. -/
def findFieldAt (fields : FieldDef) (p : Nat) : Option String :=
  match fields with
  | [] => none
  | (n, q) :: rest => if q = some p then some n else findFieldAt rest p

/-- Modelled from the spec: serialization back into positional-array form
(§2(b)) — every mapped position receives the named field's value, unmapped
slots are left absent (`null`). -/
def serializeRecord (fields : FieldDef) (r : Record) : List Value :=
  (List.range (wireLen fields)).map (fun i =>
    match findFieldAt fields i with
    | some n => lookupKey r n
    | none => Value.null)

/-- The canonical record over `fields` whose value at each declared field
name is given by the valuation `val`. -/
def mkRecord (fields : FieldDef) (val : String → Value) : Record :=
  fields.map (fun f => (f.1, val f.1))

/-- Replace the value of field `k` by `v` (property assignment on an
already-normalized record). -/
def setField (r : Record) (k : String) (v : Value) : Record :=
  r.map (fun p => if p.1 = k then (k, v) else p)

/-! ## JavaScript string primitives used by the LedgerEntry constructor -/

/-- The separator of `description.split('wallet')` as a character list. -/
def walletSep : List Char := String.toList "wallet"

/-- Boolean string-prefix test on character lists (mirrors
`List.isPrefixOf`, kept local so its specification lemmas stay
self-contained). -/
def isPre : List Char → List Char → Bool
  | [], _ => true
  | _ :: _, [] => false
  | a :: as, b :: bs => a = b && isPre as bs

/-- Index of the first occurrence of `sep` in `s`, if any (the scan
underlying JavaScript `String.prototype.split` with a string separator). -/
def findSub (sep s : List Char) : Option Nat :=
  if isPre sep s then some 0
  else
    match s with
    | [] => none
    | _ :: t => Option.map (· + 1) (findSub sep t)

/-- Fuel-driven splitting of `s` at non-overlapping leftmost occurrences
of `"wallet"`, as JavaScript `s.split('wallet')` does.  Structural in the
fuel so that it evaluates in the kernel. -/
def splitWalletFuel : Nat → List Char → List (List Char)
  | 0, s => [s]
  | fuel + 1, s =>
    match findSub walletSep s with
    | none => [s]
    | some i => s.take i :: splitWalletFuel fuel (s.drop (i + 6))

/-- `s.split('wallet')` on character lists. -/
def splitWallet (s : List Char) : List (List Char) :=
  splitWalletFuel (s.length + 1) s

/-- JavaScript `String.prototype.trim` on character lists: strip
whitespace from both ends. -/
def jsTrim (s : List Char) : List Char :=
  ((s.dropWhile Char.isWhitespace).reverse.dropWhile Char.isWhitespace).reverse

/-! ## LedgerEntry (src/ledger_entry.js) -/

/-- The LedgerEntry field table (src/ledger_entry.js lines 12–20):
`wallet` carries the absence marker. -/
def ledgerFields : FieldDef :=
  [("id", some 0), ("currency", some 1), ("mts", some 3), ("amount", some 5),
   ("balance", some 6), ("description", some 8), ("wallet", none)]

/-- The derived `wallet` value computed by the LedgerEntry constructor
(src/ledger_entry.js lines 47–53) from the normalized `description`:
`null` unless the description is a non-empty string whose split on
`"wallet"` has more than one part, in which case the last part, trimmed. -/
def walletOf (v : Value) : Value :=
  match v with
  | Value.str s =>
    let cs := s.toList
    if cs.isEmpty then Value.null
    else
      let spl := splitWallet cs
      if spl.length > 1 then Value.str (jsTrim (spl.getLastD [])).asString
      else Value.null
  | _ => Value.null

/-- The entity-specific derived-field step of the LedgerEntry constructor:
assign `wallet` from the normalized `description`. -/
def ledgerDerive (r : Record) : Record :=
  setField r "wallet" (walletOf (lookupKey r "description"))

/-- LedgerEntry construction: normalize, then apply the derived-field
step to every resulting record. -/
def ledgerConstruct (d : Input) : List Record :=
  (normalize ledgerFields d).map ledgerDerive

/-- LedgerEntry.unserialize: the Normalizer's extraction without entity
wrapping or derived fields (spec §4.3). -/
def ledgerUnserialize (d : Input) : List Record :=
  normalize ledgerFields d

/-! ## TradingTicker (unnamed source part_000) -/

/-- The TradingTicker field table (`TradingTicker.FIELD_INDEX_MAPPING`). -/
def tickerFields : FieldDef :=
  [("symbol", some 0), ("bid", some 1), ("bidSize", some 2), ("ask", some 3),
   ("askSize", some 4), ("dailyChange", some 5), ("dailyChangePerc", some 6),
   ("lastPrice", some 7), ("volume", some 8), ("high", some 9), ("low", some 10)]

/-- TradingTicker construction: the constructor parses the data with the
field table and attaches the parsed properties; there is no derived-field
step, so the records are exactly the normalized ones. -/
def tickerConstruct (d : Input) : List Record :=
  normalize tickerFields d

/-- TradingTicker.unserialize: the extraction without instance wrapping. -/
def tickerUnserialize (d : Input) : List Record :=
  normalize tickerFields d

/-- JavaScript truthiness on our value type: `null`/`undefined`, `0` and
`""` are falsy. -/
def jsFalsy : Value → Bool
  | Value.null => true
  | Value.num n => n = 0
  | Value.str s => s.isEmpty

/-- `v || ''` as used by `base()`/`quote()` on `this.symbol`. -/
def jsOrEmptyStr (v : Value) : Value :=
  if jsFalsy v then Value.str "" else v

/-- JavaScript `String.prototype.substring(a, b)`: both indices clamped
to the string length and swapped when out of order. -/
def jsSubstring (s : String) (a b : Nat) : String :=
  let n := s.length
  let lo := min (min a n) (min b n)
  let hi := max (min a n) (min b n)
  (((s.toList).drop lo).take (hi - lo)).asString

/-- `TradingTicker.base()` — `(this.symbol || '').substring(1, 4)`; a
truthy non-string symbol has no `substring` method, which raises. -/
def tickerBase (symbol : Value) : Except String String :=
  match jsOrEmptyStr symbol with
  | Value.str s => Except.ok (jsSubstring s 1 4)
  | _ => Except.error "TypeError"

/-- `TradingTicker.quote()` — `(this.symbol || '').substring(4)`. -/
def tickerQuote (symbol : Value) : Except String String :=
  match jsOrEmptyStr symbol with
  | Value.str s => Except.ok (jsSubstring s 4 s.length)
  | _ => Except.error "TypeError"

/-! ## FundingLoan wire positions (lib/types/funding_loan/array_data.js) -/

/-- The FundingLoan field table, read off the `FundingLoan~ArrayData`
typedef: mapped positions {0–8, 11–16, 18–20}, gaps at 9–10 and 17. -/
def fundingLoanFields : FieldDef :=
  [("id", some 0), ("symbol", some 1), ("side", some 2),
   ("mtsCreate", some 3), ("mtsUpdate", some 4), ("amount", some 5),
   ("flags", some 6), ("status", some 7), ("type", some 8),
   ("rate", some 11), ("period", some 12), ("mtsOpening", some 13),
   ("mtsLastPayout", some 14), ("notify", some 15), ("hidden", some 16),
   ("renew", some 18), ("rateReal", some 19), ("noClose", some 20)]

/-! ## Validators and the validation pipeline -/

/-- Modelled from the spec: the validator contract (§6) — a function from
(value, whole-record context) to an error message or no error. -/
def Validator : Type := Value → Record → Option String

/-- Modelled from the spec: a value must be a number. -/
def numberValidator : Validator := fun v _ =>
  match v with
  | Value.num _ => none
  | _ => some "must be a number"

/-- Modelled from the spec: a timestamp must be a number. -/
def dateValidator : Validator := fun v _ =>
  match v with
  | Value.num _ => none
  | _ => some "must be a timestamp"

/-- Modelled from the spec: an amount is a number of either sign. -/
def amountValidator : Validator := fun v _ =>
  match v with
  | Value.num _ => none
  | _ => some "must be an amount"

/-- Modelled from the spec: a price must be a positive number (the spec's
scenario: `bid` must be positive, so `-1` is rejected). -/
def priceValidator : Validator := fun v _ =>
  match v with
  | Value.num n => if 0 < n then none else some "must be a positive number"
  | _ => some "must be a positive number"

/-- Modelled from the spec: a currency is a non-empty string. -/
def currencyValidator : Validator := fun v _ =>
  match v with
  | Value.str s => if s.isEmpty then some "must be a currency" else none
  | _ => some "must be a currency"

/-- Modelled from the spec: a string field must hold a string. -/
def stringValidator : Validator := fun v _ =>
  match v with
  | Value.str _ => none
  | _ => some "must be a string"

/-- Modelled from the spec: a symbol is a non-empty string. -/
def symbolValidator : Validator := fun v _ =>
  match v with
  | Value.str s => if s.isEmpty then some "must be a symbol" else none
  | _ => some "must be a symbol"

/-- A Validation Outcome (spec §3): valid, the empty-batch disqualifier,
or a violation naming the offending field and zero-based batch index. -/
inductive Outcome where
  | valid : Outcome
  | emptyBatch : Outcome
  | violation : String → Nat → String → Outcome
deriving DecidableEq, Repr

/-- Modelled from the spec: per-record validation (§4.4 step 3) — walk
the declared fields in table order and apply each registered validator to
the field's value with the whole record as context; return the first
failing field with its message. -/
def validateRecord (fields : FieldDef) (vs : List (String × Validator))
    (r : Record) : Option (String × String) :=
  match fields with
  | [] => none
  | f :: rest =>
    match lookupOpt vs f.1 with
    | none => validateRecord rest vs r
    | some vd =>
      match vd (lookupKey r f.1) r with
      | some e => some (f.1, e)
      | none => validateRecord rest vs r

/-- Modelled from the spec: §4.4 step 4 — scan the records in order,
stopping at the first one whose validation fails. -/
def firstViolation (fields : FieldDef) (vs : List (String × Validator)) :
    List Record → Nat → Outcome
  | [], _ => Outcome.valid
  | r :: rest, i =>
    match validateRecord fields vs r with
    | some (f, e) => Outcome.violation f i e
    | none => firstViolation fields vs rest (i + 1)

/-- Whether a canonical record is absent/empty: every field unset. -/
def recordEmpty (r : Record) : Bool :=
  r.all (fun p => match p.2 with
    | Value.null => true
    | _ => false)

/-- Modelled from the spec: the Validation Pipeline (§4.4) — normalize the
input, report the empty-batch disqualifier when the sequence is empty or
every element is absent/empty, otherwise return the first violation (or
valid). -/
def validatePipeline (fields : FieldDef) (vs : List (String × Validator))
    (d : Input) : Outcome :=
  let rs := normalize fields d
  if rs.isEmpty || rs.all recordEmpty then Outcome.emptyBatch
  else firstViolation fields vs rs 0

/-- The LedgerEntry validator mapping (src/ledger_entry.js lines 74–83). -/
def ledgerValidators : List (String × Validator) :=
  [("id", numberValidator), ("currency", currencyValidator),
   ("mts", dateValidator), ("amount", amountValidator),
   ("balance", amountValidator), ("description", stringValidator)]

/-- LedgerEntry.validate. -/
def ledgerValidate (d : Input) : Outcome :=
  validatePipeline ledgerFields ledgerValidators d

/-- The TradingTicker validator mapping (part_000 lines 135–147). -/
def tickerValidators : List (String × Validator) :=
  [("symbol", symbolValidator), ("bid", priceValidator),
   ("bidSize", amountValidator), ("ask", priceValidator),
   ("askSize", amountValidator), ("dailyChange", numberValidator),
   ("dailyChangePerc", numberValidator), ("lastPrice", priceValidator),
   ("volume", numberValidator), ("high", priceValidator),
   ("low", priceValidator)]

/-- TradingTicker.validate. -/
def tickerValidate (d : Input) : Outcome :=
  validatePipeline tickerFields tickerValidators d

/-- Whether an input is in positional (wire-array) form. -/
def positionalInput : Input → Bool
  | Input.null0 => true
  | Input.one (Item.arr _) => true
  | Input.one (Item.obj _) => false
  | Input.many its => its.all (fun it =>
      match it with
      | Item.arr _ => true
      | Item.obj _ => false)

/-! ## Theorems -/

/-- C1: constructing a LedgerEntry from the positional array
`[1, "USD", null, 1000, null, 50.5, 200.0, null, "Transfer from wallet margin"]`
via the LedgerEntry field table yields id = 1, currency = "USD",
mts = 1000, amount = 50.5, balance = 200.0, the description itself, and
the derived `wallet = "margin"` (text after the last occurrence of
"wallet" in the description, trimmed). -/
theorem c1_ledger_concrete_scenario :
    ledgerConstruct (Input.one (Item.arr
      [Value.num 1, Value.str "USD", Value.null, Value.num 1000, Value.null,
       Value.num 50.5, Value.num 200.0, Value.null,
       Value.str "Transfer from wallet margin"]))
    = [[("id", Value.num 1), ("currency", Value.str "USD"),
        ("mts", Value.num 1000), ("amount", Value.num 50.5),
        ("balance", Value.num 200.0),
        ("description", Value.str "Transfer from wallet margin"),
        ("wallet", Value.str "margin")]] := rfl

theorem lookupKey_mkRecord {fields : FieldDef} {f : String}
    (val : String → Value) (hf : f ∈ fields.map Prod.fst) :
    lookupKey (mkRecord fields val) f = val f := by
  induction fields with
  | nil => simp at hf
  | cons g rest ih =>
    simp only [List.map_cons, List.mem_cons] at hf
    simp only [mkRecord, List.map_cons, lookupKey, lookupOpt]
    by_cases hgf : g.1 = f
    · subst hgf; simp
    · rcases hf with hf | hf
      · exact absurd hf.symm hgf
      · simp only [hgf, if_false]
        exact ih hf

theorem lookupKey_normalizeItem {fields : FieldDef} {f : String}
    {d : Option Nat} (it : Item) (hnd : (fields.map Prod.fst).Nodup)
    (hf : (f, d) ∈ fields) :
    lookupKey (normalizeItem fields it) f = extract it f d := by
  induction fields with
  | nil => simp at hf
  | cons g rest ih =>
    simp only [List.map_cons, List.nodup_cons] at hnd
    simp only [List.mem_cons] at hf
    simp only [normalizeItem, List.map_cons, lookupKey, lookupOpt]
    by_cases hgf : g.1 = f
    · rcases hf with hf | hf
      · subst hf; simp
      · exact absurd (hgf ▸ List.mem_map_of_mem Prod.fst hf) hnd.1
    · rcases hf with hf | hf
      · exact absurd (congrArg Prod.fst hf).symm hgf
      · simp only [hgf, if_false]
        exact ih hnd.2 hf

theorem pos_lt_wireLen {fields : FieldDef} {f : String} {p : Nat}
    (hf : (f, some p) ∈ fields) : p < wireLen fields := by
  induction fields with
  | nil => simp at hf
  | cons g rest ih =>
    obtain ⟨gn, gp⟩ := g
    simp only [List.mem_cons, Prod.mk.injEq] at hf
    rcases hf with ⟨h1, h2⟩ | hf
    · subst h1
      rw [← h2]
      simp only [wireLen, List.foldr]
      exact lt_of_lt_of_le (Nat.lt_succ_self p) le_sup_left
    · have := ih hf
      rcases gp with _ | q
      · simpa [wireLen] using this
      · simp only [wireLen, List.foldr] at this ⊢
        exact lt_of_lt_of_le this le_sup_right

theorem findFieldAt_mem {fields : FieldDef} {p : Nat} {g : String}
    (h : findFieldAt fields p = some g) : (g, some p) ∈ fields := by
  induction fields with
  | nil => simp [findFieldAt] at h
  | cons x rest ih =>
    obtain ⟨xn, xp⟩ := x
    simp only [findFieldAt] at h
    by_cases hx : xp = some p
    · subst hx
      simp only [if_true] at h
      injection h with h
      subst h
      exact List.mem_cons_self _ _
    · simp only [hx, if_false] at h
      exact List.mem_cons_of_mem _ (ih h)

theorem findFieldAt_isSome {fields : FieldDef} {f : String} {p : Nat}
    (hf : (f, some p) ∈ fields) : ∃ g, findFieldAt fields p = some g := by
  induction fields with
  | nil => simp at hf
  | cons x rest ih =>
    simp only [findFieldAt]
    by_cases hx : x.2 = some p
    · exact ⟨x.1, by simp [hx]⟩
    · simp only [hx, if_false]
      simp only [List.mem_cons] at hf
      rcases hf with hf | hf
      · exact absurd (congrArg Prod.snd hf).symm hx
      · exact ih hf

theorem serializeRecord_getD {fields : FieldDef} {f : String} {p : Nat}
    (val : String → Value)
    (hinj : ∀ x ∈ fields, ∀ y ∈ fields, x.2 = y.2 → x.2 ≠ none → x.1 = y.1)
    (hf : (f, some p) ∈ fields) :
    (serializeRecord fields (mkRecord fields val)).getD p Value.null = val f := by
  have hp : p < wireLen fields := pos_lt_wireLen hf
  obtain ⟨g, hg⟩ := findFieldAt_isSome hf
  have hgmem : (g, some p) ∈ fields := findFieldAt_mem hg
  have hgf : g = f := hinj _ hgmem _ hf rfl (by simp)
  subst hgf
  have hmem : g ∈ fields.map Prod.fst := List.mem_map_of_mem Prod.fst hgmem
  simp only [serializeRecord, List.getD_eq_getElem?_getD, List.getElem?_map,
    List.getElem?_range hp, Option.map_some', Option.getD_some, hg]
  exact lookupKey_mkRecord val hmem

/-- C3: round-trip law — for every entity field table (names unique,
mapped positions unique, as the spec's data-model invariants require) and
every fully-populated canonical record, normalizing the serialization
gives back the record on every declared field that has a wire position. -/
theorem c3_roundtrip_normalize_serialize (fields : FieldDef)
    (val : String → Value) (f : String) (p : Nat)
    (hnd : (fields.map Prod.fst).Nodup)
    (hinj : ∀ x ∈ fields, ∀ y ∈ fields, x.2 = y.2 → x.2 ≠ none → x.1 = y.1)
    (hf : (f, some p) ∈ fields) :
    lookupKey (normalizeItem fields
        (Item.arr (serializeRecord fields (mkRecord fields val)))) f
      = lookupKey (mkRecord fields val) f := by
  rw [lookupKey_normalizeItem _ hnd hf]
  simp only [extract]
  rw [serializeRecord_getD val hinj hf,
    lookupKey_mkRecord val (List.mem_map_of_mem Prod.fst hf)]

/-- Witness for C3 at the LedgerEntry table: the hypotheses hold for the
declared table and the round-trip equation holds at field `"id"`. -/
theorem c3_roundtrip_witness :
    (ledgerFields.map Prod.fst).Nodup
    ∧ (∀ x ∈ ledgerFields, ∀ y ∈ ledgerFields,
        x.2 = y.2 → x.2 ≠ none → x.1 = y.1)
    ∧ ("id", some 0) ∈ ledgerFields
    ∧ lookupKey (normalizeItem ledgerFields
        (Item.arr (serializeRecord ledgerFields
          (mkRecord ledgerFields (fun _ => Value.num 7))))) "id"
      = lookupKey (mkRecord ledgerFields (fun _ => Value.num 7)) "id" :=
  ⟨by decide, by decide, by decide,
    c3_roundtrip_normalize_serialize ledgerFields (fun _ => Value.num 7)
      "id" 0 (by decide) (by decide) (by decide)⟩

theorem normalizeItem_arr_nil (fields : FieldDef) :
    normalizeItem fields (Item.arr []) = emptyRecord fields := by
  unfold normalizeItem emptyRecord
  apply List.map_congr_left
  intro f _
  rcases f with ⟨n, _ | p⟩ <;> simp [extract]

theorem normalizeItem_obj_nil (fields : FieldDef) :
    normalizeItem fields (Item.obj []) = emptyRecord fields := by
  unfold normalizeItem emptyRecord
  apply List.map_congr_left
  intro f _
  simp [extract, lookupOpt]

/-- C4: shape tolerance — construction from `null`, from `[]` and from
`{}` succeeds (the embedding is total, so nothing can raise) and yields a
single instance with every declared field unset, both for the generic
Normalizer on any field table and for the LedgerEntry and TradingTicker
constructors. -/
theorem c4_shape_tolerance :
    (∀ fields : FieldDef,
        normalize fields Input.null0 = [emptyRecord fields]
        ∧ normalize fields (Input.one (Item.arr [])) = [emptyRecord fields]
        ∧ normalize fields (Input.one (Item.obj [])) = [emptyRecord fields])
    ∧ ledgerConstruct Input.null0 = [emptyRecord ledgerFields]
    ∧ ledgerConstruct (Input.one (Item.arr [])) = [emptyRecord ledgerFields]
    ∧ ledgerConstruct (Input.one (Item.obj [])) = [emptyRecord ledgerFields]
    ∧ tickerConstruct Input.null0 = [emptyRecord tickerFields]
    ∧ tickerConstruct (Input.one (Item.arr [])) = [emptyRecord tickerFields]
    ∧ tickerConstruct (Input.one (Item.obj [])) = [emptyRecord tickerFields] :=
  ⟨fun fields => ⟨rfl, by rw [normalize, normalizeItem_arr_nil],
      by rw [normalize, normalizeItem_obj_nil]⟩,
    rfl, rfl, rfl, rfl, rfl, rfl⟩

/-- C7: batch order preservation — for every batch input, the `i`-th
output record of normalization, LedgerEntry unserialization, LedgerEntry
construction and TradingTicker construction is the image of the `i`-th
input item. -/
theorem c7_batch_order_preservation (fields : FieldDef) (its : List Item)
    (i : Nat) :
    (normalize fields (Input.many its))[i]?
        = (its[i]?).map (normalizeItem fields)
    ∧ (ledgerUnserialize (Input.many its))[i]?
        = (its[i]?).map (normalizeItem ledgerFields)
    ∧ (ledgerConstruct (Input.many its))[i]?
        = (its[i]?).map (fun it => ledgerDerive (normalizeItem ledgerFields it))
    ∧ (tickerConstruct (Input.many its))[i]?
        = (its[i]?).map (normalizeItem tickerFields) := by
  refine ⟨?_, ?_, ?_, ?_⟩ <;>
    simp [normalize, ledgerUnserialize, ledgerConstruct, tickerConstruct,
      List.getElem?_map, Option.map_map, Function.comp_def]

/-- C8: gap tolerance for the funding-loan table — reading positional
input only consults the mapped positions (inputs agreeing on every mapped
position normalize identically), and serialization leaves the unmapped
slots 9, 10 and 17 absent while the wire length still spans them. -/
theorem c8_funding_loan_gap_tolerance :
    (∀ xs ys : List Value,
        (∀ x ∈ fundingLoanFields, ∀ p ∈ x.2.toList,
          xs.getD p Value.null = ys.getD p Value.null) →
        normalizeItem fundingLoanFields (Item.arr xs)
          = normalizeItem fundingLoanFields (Item.arr ys))
    ∧ (∀ r : Record,
        (serializeRecord fundingLoanFields r).getD 9 Value.null = Value.null
        ∧ (serializeRecord fundingLoanFields r).getD 10 Value.null = Value.null
        ∧ (serializeRecord fundingLoanFields r).getD 17 Value.null = Value.null)
    ∧ wireLen fundingLoanFields = 21 := by
  refine ⟨?_, fun r => ⟨rfl, rfl, rfl⟩, rfl⟩
  intro xs ys h
  unfold normalizeItem
  apply List.map_congr_left
  intro f hf
  rcases f with ⟨n, _ | p⟩
  · rfl
  · simpa [extract] using h _ hf p (by simp)

/-- Witness for C8: two concrete wire arrays that differ only at the
unmapped position 9 normalize to the same record. -/
theorem c8_funding_loan_gap_witness :
    (∀ x ∈ fundingLoanFields, ∀ p ∈ x.2.toList,
      (List.replicate 21 (Value.str "a")).getD p Value.null
        = ((List.replicate 21 (Value.str "a")).set 9 (Value.str "gap")).getD p
            Value.null)
    ∧ normalizeItem fundingLoanFields
          (Item.arr (List.replicate 21 (Value.str "a")))
        = normalizeItem fundingLoanFields
            (Item.arr ((List.replicate 21 (Value.str "a")).set 9
              (Value.str "gap"))) :=
  ⟨by decide, c8_funding_loan_gap_tolerance.1 _ _ (by decide)⟩

theorem lookupKey_cons (n : String) (v : Value) (rest : Record)
    (f : String) :
    lookupKey ((n, v) :: rest) f = if n = f then v else lookupKey rest f := by
  by_cases h : n = f <;> simp [lookupKey, lookupOpt, h]

theorem lookupKey_setField_ne {r : Record} {k f : String} (v : Value)
    (h : k ≠ f) : lookupKey (setField r k v) f = lookupKey r f := by
  induction r with
  | nil => rfl
  | cons p rest ih =>
    obtain ⟨pn, pv⟩ := p
    simp only [setField, List.map_cons]
    by_cases hp : pn = k
    · rw [if_pos hp, lookupKey_cons, lookupKey_cons, if_neg h,
        if_neg (fun hh => h (hp ▸ hh))]
      exact ih
    · rw [if_neg hp, lookupKey_cons, lookupKey_cons]
      by_cases hpf : pn = f
      · simp [hpf]
      · rw [if_neg hpf, if_neg hpf]
        exact ih

/-- C5: LedgerEntry.unserialize is construction minus instance wrapping
and minus derived fields — same number of records, the same value at
every position-mapped field, no `wallet` population on positional input
(while the constructor does populate it), and for TradingTicker (which
has no derived field) the two coincide exactly. -/
theorem c5_unserialize_refines_construct (d : Input) :
    (ledgerUnserialize d).length = (ledgerConstruct d).length
    ∧ (∀ i : Nat, ∀ x ∈ ledgerFields, x.2 ≠ none →
        lookupKey ((ledgerConstruct d).getD i []) x.1
          = lookupKey ((ledgerUnserialize d).getD i []) x.1)
    ∧ (positionalInput d = true →
        ∀ r ∈ ledgerUnserialize d, lookupKey r "wallet" = Value.null)
    ∧ tickerUnserialize d = tickerConstruct d
    ∧ lookupKey ((ledgerConstruct (Input.one (Item.arr
        [Value.null, Value.null, Value.null, Value.null, Value.null,
         Value.null, Value.null, Value.null,
         Value.str "exchange wallet x"]))).getD 0 []) "wallet"
      = Value.str "x" := by
  refine ⟨by simp [ledgerConstruct, ledgerUnserialize], ?_, ?_, rfl, rfl⟩
  · intro i x hx hpos
    have hnw : x.1 ≠ "wallet" := by
      have hall : ∀ y ∈ ledgerFields, y.2 ≠ none → y.1 ≠ "wallet" := by decide
      exact hall x hx hpos
    show lookupKey (((normalize ledgerFields d).map ledgerDerive).getD i []) x.1
      = lookupKey ((normalize ledgerFields d).getD i []) x.1
    rcases hl : (normalize ledgerFields d)[i]? with _ | r
    · simp [List.getD_eq_getElem?_getD, List.getElem?_map, hl]
    · simp only [List.getD_eq_getElem?_getD, List.getElem?_map, hl,
        Option.map_some', Option.getD_some]
      exact lookupKey_setField_ne _ (fun hh => hnw hh.symm)
  · intro hpos r hr
    rcases d with _ | it | its
    · simp only [ledgerUnserialize, normalize, List.mem_singleton] at hr
      subst hr; rfl
    · rcases it with xs | kvs
      · simp only [ledgerUnserialize, normalize, List.mem_singleton] at hr
        subst hr; rfl
      · simp [positionalInput] at hpos
    · simp only [ledgerUnserialize, normalize, List.mem_map] at hr
      obtain ⟨it, hit, rfl⟩ := hr
      rcases it with xs | kvs
      · rfl
      · simp only [positionalInput, List.all_eq_true] at hpos
        exact absurd (hpos _ hit) (by simp)

/-- Witness for C5 at a concrete positional ledger record: the mapped
field `id` agrees between construction and unserialization, and no
unserialized record populates `wallet`. -/
theorem c5_unserialize_witness :
    lookupKey ((ledgerConstruct (Input.one (Item.arr
        [Value.num 5, Value.str "USD"]))).getD 0 []) "id"
      = lookupKey ((ledgerUnserialize (Input.one (Item.arr
        [Value.num 5, Value.str "USD"]))).getD 0 []) "id"
    ∧ (∀ r ∈ ledgerUnserialize (Input.one (Item.arr
        [Value.num 5, Value.str "USD"])), lookupKey r "wallet" = Value.null) :=
  ⟨(c5_unserialize_refines_construct _).2.1 0 ("id", some 0) (by decide)
      (by decide),
    (c5_unserialize_refines_construct _).2.2.1 rfl⟩

theorem firstViolation_append (fields : FieldDef)
    (vs : List (String × Validator)) (rest : List Record) (f e : String) :
    ∀ (rs : List Record) (k i : Nat), i < rs.length →
    (∀ j, j < i → validateRecord fields vs (rs.getD j []) = none) →
    validateRecord fields vs (rs.getD i []) = some (f, e) →
    firstViolation fields vs (rs ++ rest) k = Outcome.violation f (k + i) e := by
  intro rs
  induction rs with
  | nil => intro k i hi; simp at hi
  | cons r rs' ih =>
    intro k i hi hprev hfail
    rcases hv : validateRecord fields vs r with _ | ⟨f', e'⟩
    · rcases i with _ | i'
      · rw [List.getD_cons_zero, hv] at hfail
        exact absurd hfail (by simp)
      · have h1 := ih (k + 1) i' (by simpa using hi)
          (fun j hj => by
            have h2 := hprev (j + 1) (by omega)
            rwa [List.getD_cons_succ] at h2)
          (by rwa [List.getD_cons_succ] at hfail)
        have h3 : firstViolation fields vs ((r :: rs') ++ rest) k
            = firstViolation fields vs (rs' ++ rest) (k + 1) := by
          simp only [List.cons_append, firstViolation, hv]
          rfl
        rw [h3, h1]
        have h4 : k + 1 + i' = k + (i' + 1) := by omega
        rw [h4]
    · rcases i with _ | i'
      · rw [List.getD_cons_zero, hv] at hfail
        injection hfail with hfe
        injection hfe with hf he
        subst hf
        subst he
        simp only [List.cons_append, firstViolation, hv, Nat.add_zero]
      · have h6 := hprev 0 (by omega)
        rw [List.getD_cons_zero, hv] at h6
        exact absurd h6 (by simp)

/-- C2: first-failure semantics of the validation pipeline — validating a
single record equals validating the one-element batch; and for any batch
whose prefix `its` contains a non-empty record, if the first `i` records
validate cleanly and record `i` fails at field `f` with message `e`, the
pipeline returns exactly that violation tagged with `f` and the zero-based
index `i`, whatever records follow (later fields and records are never
consulted). -/
theorem c2_validation_first_failure :
    (∀ (fields : FieldDef) (vs : List (String × Validator)) (it : Item),
        validatePipeline fields vs (Input.one it)
          = validatePipeline fields vs (Input.many [it]))
    ∧ (∀ (fields : FieldDef) (vs : List (String × Validator))
        (its rest : List Item) (i : Nat) (f e : String),
        (∃ it ∈ its, recordEmpty (normalizeItem fields it) = false) →
        i < its.length →
        (∀ j, j < i → validateRecord fields vs
            ((its.map (normalizeItem fields)).getD j []) = none) →
        validateRecord fields vs
            ((its.map (normalizeItem fields)).getD i []) = some (f, e) →
        validatePipeline fields vs (Input.many (its ++ rest))
          = Outcome.violation f i e) := by
  constructor
  · intro fields vs it
    rfl
  · intro fields vs its rest i f e hex hi hprev hfail
    obtain ⟨it, hit, hfalse⟩ := hex
    have hall : ((its ++ rest).map (normalizeItem fields)).all recordEmpty
        = false := by
      refine List.all_eq_false.2 ⟨normalizeItem fields it, ?_, by simp [hfalse]⟩
      exact List.mem_map_of_mem _ (List.mem_append_left _ hit)
    have hie : ((its ++ rest).map (normalizeItem fields)).isEmpty = false := by
      rcases h : ((its ++ rest).map (normalizeItem fields)).isEmpty with _ | _
      · rfl
      · rw [List.isEmpty_iff] at h
        rw [h] at hall
        exact absurd hall (by simp)
    show (if ((its ++ rest).map (normalizeItem fields)).isEmpty
          || ((its ++ rest).map (normalizeItem fields)).all recordEmpty
        then Outcome.emptyBatch
        else firstViolation fields vs
          ((its ++ rest).map (normalizeItem fields)) 0)
      = Outcome.violation f i e
    rw [hie, hall]
    simp only [Bool.or_self, Bool.false_eq_true, if_false, List.map_append]
    have := firstViolation_append fields vs (rest.map (normalizeItem fields))
      f e (its.map (normalizeItem fields)) 0 i (by simpa using hi) hprev hfail
    simpa using this

/-- Witness for C2: the spec's TradingTicker scenario — a record with a
valid symbol, `bid = -1`, and an invalid later field `high` validates to
a violation tagged to `bid` at batch index 0, showing both the tag and
the short-circuit past later fields. -/
theorem c2_validation_witness :
    tickerValidate (Input.many [Item.obj
      [("symbol", Value.str "tBTCUSD"), ("bid", Value.num (-1)),
       ("bidSize", Value.num 1), ("ask", Value.num 2),
       ("askSize", Value.num 3), ("dailyChange", Value.num 4),
       ("dailyChangePerc", Value.num 5), ("lastPrice", Value.num 6),
       ("volume", Value.num 7), ("high", Value.str "bad"),
       ("low", Value.num 9)]])
      = Outcome.violation "bid" 0 "must be a positive number"
    ∧ priceValidator (Value.str "bad") [] = some "must be a positive number" := by
  constructor
  · have h := c2_validation_first_failure.2 tickerFields tickerValidators
      [Item.obj
        [("symbol", Value.str "tBTCUSD"), ("bid", Value.num (-1)),
         ("bidSize", Value.num 1), ("ask", Value.num 2),
         ("askSize", Value.num 3), ("dailyChange", Value.num 4),
         ("dailyChangePerc", Value.num 5), ("lastPrice", Value.num 6),
         ("volume", Value.num 7), ("high", Value.str "bad"),
         ("low", Value.num 9)]] [] 0 "bid" "must be a positive number"
      ⟨_, List.mem_singleton.2 rfl, by decide⟩ (by decide)
      (fun j hj => absurd hj (Nat.not_lt_zero j)) (by decide)
    simpa using h
  · rfl

/-- C6: an empty batch, a `null` input, and a batch whose elements all
normalize to empty records each produce the disqualifying empty-batch
outcome, which is distinct from "valid". -/
theorem c6_empty_batch_disqualifying :
    (∀ (fields : FieldDef) (vs : List (String × Validator)),
        validatePipeline fields vs (Input.many []) = Outcome.emptyBatch)
    ∧ (∀ (fields : FieldDef) (vs : List (String × Validator)),
        validatePipeline fields vs Input.null0 = Outcome.emptyBatch)
    ∧ (∀ (fields : FieldDef) (vs : List (String × Validator))
        (its : List Item),
        (∀ it ∈ its, recordEmpty (normalizeItem fields it) = true) →
        validatePipeline fields vs (Input.many its) = Outcome.emptyBatch)
    ∧ Outcome.emptyBatch ≠ Outcome.valid := by
  refine ⟨fun fields vs => rfl, ?_, ?_, by simp⟩
  · intro fields vs
    show (if [emptyRecord fields].isEmpty
          || [emptyRecord fields].all recordEmpty
        then Outcome.emptyBatch
        else firstViolation fields vs [emptyRecord fields] 0)
      = Outcome.emptyBatch
    have h : recordEmpty (emptyRecord fields) = true := by
      induction fields with
      | nil => rfl
      | cons f rest ih => simpa [recordEmpty, emptyRecord] using ih
    simp [h]
  · intro fields vs its h
    show (if (its.map (normalizeItem fields)).isEmpty
          || (its.map (normalizeItem fields)).all recordEmpty
        then Outcome.emptyBatch
        else firstViolation fields vs (its.map (normalizeItem fields)) 0)
      = Outcome.emptyBatch
    have : (its.map (normalizeItem fields)).all recordEmpty = true := by
      refine List.all_eq_true.2 ?_
      intro r hr
      obtain ⟨it, hit, rfl⟩ := List.mem_map.1 hr
      exact h it hit
    simp [this]

/-- Witness for C6: validating a batch of one empty positional array with
the LedgerEntry validators reports the empty-batch disqualifier. -/
theorem c6_empty_batch_witness :
    ledgerValidate (Input.many [Item.arr []]) = Outcome.emptyBatch :=
  c6_empty_batch_disqualifying.2.2.1 ledgerFields ledgerValidators
    [Item.arr []] (by decide)

/-- C10 counterexample: a TradingTicker constructed from the positional
array `[42]` carries `symbol = 42`; on it `(this.symbol || '')` is the
truthy number `42`, which has no `substring` method, so `base()` and
`quote()` raise a TypeError — refuting "base() and quote() never throw"
as stated for every instance. -/
theorem c10_base_quote_counterexample :
    lookupKey ((tickerConstruct (Input.one (Item.arr [Value.num 42]))).getD 0 [])
        "symbol" = Value.num 42
    ∧ tickerBase (Value.num 42) = Except.error "TypeError"
    ∧ tickerQuote (Value.num 42) = Except.error "TypeError" :=
  ⟨rfl, rfl, rfl⟩

/-- C10 (amended): whenever `symbol` is unset or a string, `base()` and
`quote()` do not throw; an unset symbol makes both return the empty
string, and a string symbol of length at least 5 yields the characters at
positions 1–3 from `base()` and the characters from position 4 onward
from `quote()`. -/
theorem c10_base_quote_amended (v : Value) :
    ((v = Value.null ∨ ∃ s, v = Value.str s) →
      (tickerBase v).isOk = true ∧ (tickerQuote v).isOk = true)
    ∧ (v = Value.null →
        tickerBase v = Except.ok "" ∧ tickerQuote v = Except.ok "")
    ∧ (∀ s : String, v = Value.str s → 5 ≤ s.length →
        tickerBase v = Except.ok ((s.toList.drop 1).take 3).asString
        ∧ tickerQuote v = Except.ok (s.toList.drop 4).asString) := by
  refine ⟨?_, ?_, ?_⟩
  · rintro (rfl | ⟨s, rfl⟩)
    · exact ⟨rfl, rfl⟩
    · by_cases he : s.isEmpty <;>
        simp [tickerBase, tickerQuote, jsOrEmptyStr, jsFalsy, he, Except.isOk,
          Except.toBool]
  · rintro rfl
    exact ⟨rfl, rfl⟩
  · rintro s rfl h5
    have hne : s.isEmpty = false := by
      rcases h : s.isEmpty with _ | _
      · rfl
      · rw [String.isEmpty_iff] at h
        subst h
        simp at h5
    have hlen : s.toList.length = s.length := rfl
    have hb : tickerBase (Value.str s) = Except.ok (jsSubstring s 1 4) := by
      simp [tickerBase, jsOrEmptyStr, jsFalsy, hne]
    have hq : tickerQuote (Value.str s)
        = Except.ok (jsSubstring s 4 s.length) := by
      simp [tickerQuote, jsOrEmptyStr, jsFalsy, hne]
    constructor
    · rw [hb]
      have h1 : min 1 s.length = 1 := by omega
      have h4 : min 4 s.length = 4 := by omega
      simp only [jsSubstring, h1, h4]
      norm_num
    · rw [hq]
      have h4 : min 4 s.length = 4 := by omega
      have hmax : max 4 s.length = s.length := by omega
      simp only [jsSubstring, h4, min_self]
      rw [hmax]
      have htake : (s.toList.drop 4).length ≤ s.length - 4 := by
        rw [List.length_drop, hlen]
      rw [List.take_of_length_le htake]

/-- Witness for C10 (amended) at `symbol = "tBTCUSD"`: `base()` returns
`"BTC"` and `quote()` returns `"USD"`, and neither throws. -/
theorem c10_base_quote_witness :
    tickerBase (Value.str "tBTCUSD") = Except.ok "BTC"
    ∧ tickerQuote (Value.str "tBTCUSD") = Except.ok "USD" := by
  have h := (c10_base_quote_amended (Value.str "tBTCUSD")).2.2 "tBTCUSD" rfl
    (by decide)
  exact ⟨by rw [h.1]; rfl, by rw [h.2]; rfl⟩

theorem isPre_iff (sep : List Char) : ∀ s, isPre sep s = true ↔ ∃ t, sep ++ t = s := by
  induction sep with
  | nil =>
    intro s
    simp [isPre]
  | cons a as ih =>
    intro s
    rcases s with _ | ⟨b, bs⟩
    · simp [isPre]
    · simp only [isPre, Bool.and_eq_true, decide_eq_true_eq]
      constructor
      · rintro ⟨rfl, h⟩
        obtain ⟨t, rfl⟩ := (ih bs).1 h
        exact ⟨t, rfl⟩
      · rintro ⟨t, ht⟩
        injection ht with h1 h2
        exact ⟨h1, (ih bs).2 ⟨t, h2⟩⟩

theorem findSub_isPre {sep : List Char} :
    ∀ {s : List Char} {i : Nat}, findSub sep s = some i →
      isPre sep (s.drop i) = true := by
  intro s
  induction s with
  | nil =>
    intro i h
    unfold findSub at h
    rcases hp : isPre sep [] with _ | _
    · rw [hp] at h
      simp at h
    · rw [hp] at h
      simp at h
      subst h
      exact hp
  | cons c t ih =>
    intro i h
    unfold findSub at h
    rcases hp : isPre sep (c :: t) with _ | _
    · rw [hp] at h
      simp only [Bool.false_eq_true, if_false] at h
      rcases hft : findSub sep t with _ | i'
      · rw [hft] at h
        simp at h
      · rw [hft] at h
        simp only [Option.map_some', Option.some.injEq] at h
        subst h
        rw [List.drop_succ_cons]
        exact ih hft
    · rw [hp] at h
      simp at h
      subst h
      exact hp

theorem findSub_none_isPre {sep : List Char} :
    ∀ {s : List Char}, findSub sep s = none →
      ∀ i, isPre sep (s.drop i) = false := by
  intro s
  induction s with
  | nil =>
    intro h i
    unfold findSub at h
    rcases hp : isPre sep [] with _ | _
    · simpa using hp
    · rw [hp] at h
      simp at h
  | cons c t ih =>
    intro h i
    unfold findSub at h
    rcases hp : isPre sep (c :: t) with _ | _
    · rw [hp] at h
      simp only [Bool.false_eq_true, if_false, Option.map_eq_none'] at h
      rcases i with _ | i'
      · exact hp
      · rw [List.drop_succ_cons]
        exact ih h i'
    · rw [hp] at h
      simp at h

theorem findSub_min {sep : List Char} :
    ∀ {s : List Char} {i : Nat}, findSub sep s = some i →
      ∀ j, isPre sep (s.drop j) = true → i ≤ j := by
  intro s
  induction s with
  | nil =>
    intro i h j _
    unfold findSub at h
    rcases hp : isPre sep [] with _ | _
    · rw [hp] at h
      simp at h
    · rw [hp] at h
      simp at h
      omega
  | cons c t ih =>
    intro i h j hj
    unfold findSub at h
    rcases hp : isPre sep (c :: t) with _ | _
    · rw [hp] at h
      simp only [Bool.false_eq_true, if_false] at h
      rcases hft : findSub sep t with _ | i'
      · rw [hft] at h
        simp at h
      · rw [hft] at h
        simp only [Option.map_some', Option.some.injEq] at h
        subst h
        rcases j with _ | j'
        · rw [List.drop_zero] at hj
          rw [hj] at hp
          simp at hp
        · rw [List.drop_succ_cons] at hj
          have := ih hft j' hj
          omega
    · rw [hp] at h
      simp at h
      omega

theorem findSub_isSome {sep : List Char} :
    ∀ {s : List Char} {j : Nat}, isPre sep (s.drop j) = true →
      ∃ i, findSub sep s = some i := by
  intro s
  induction s with
  | nil =>
    intro j hj
    rw [List.drop_nil] at hj
    refine ⟨0, ?_⟩
    unfold findSub
    rw [hj]
    rfl
  | cons c t ih =>
    intro j hj
    rcases hp : isPre sep (c :: t) with _ | _
    · rcases j with _ | j'
      · rw [List.drop_zero] at hj
        rw [hj] at hp
        simp at hp
      · rw [List.drop_succ_cons] at hj
        obtain ⟨i', hi'⟩ := ih hj
        refine ⟨i' + 1, ?_⟩
        unfold findSub
        rw [hp]
        show Option.map (· + 1) (findSub sep t) = some (i' + 1)
        rw [hi']
        rfl
    · refine ⟨0, ?_⟩
      unfold findSub
      rw [hp]
      rfl

theorem findSub_le_length {sep : List Char} :
    ∀ {s : List Char} {i : Nat}, findSub sep s = some i → i ≤ s.length := by
  intro s
  induction s with
  | nil =>
    intro i h
    unfold findSub at h
    rcases hp : isPre sep [] with _ | _
    · rw [hp] at h
      simp at h
    · rw [hp] at h
      simp at h
      omega
  | cons c t ih =>
    intro i h
    unfold findSub at h
    rcases hp : isPre sep (c :: t) with _ | _
    · rw [hp] at h
      simp only [Bool.false_eq_true, if_false] at h
      rcases hft : findSub sep t with _ | i'
      · rw [hft] at h
        simp at h
      · rw [hft] at h
        simp only [Option.map_some', Option.some.injEq] at h
        subst h
        have := ih hft
        simp only [List.length_cons]
        omega
    · rw [hp] at h
      simp at h
      omega

theorem findSub_bound {sep : List Char} {s : List Char} {i : Nat}
    (h : findSub sep s = some i) : i + sep.length ≤ s.length := by
  have h1 := findSub_isPre h
  obtain ⟨t, ht⟩ := (isPre_iff sep _).1 h1
  have h2 := findSub_le_length h
  have h3 : (s.drop i).length = s.length - i := List.length_drop i s
  have h4 : sep.length ≤ (s.drop i).length := by
    rw [← ht]
    simp
  omega

theorem walletSep_length : walletSep.length = 6 := rfl

theorem splitWalletFuel_congr :
    ∀ (f₁ : Nat) {f₂ : Nat} {s : List Char}, s.length < f₁ → s.length < f₂ →
      splitWalletFuel f₁ s = splitWalletFuel f₂ s := by
  intro f₁
  induction f₁ with
  | zero =>
    intro f₂ s h1 h2
    omega
  | succ f₁' ih =>
    intro f₂ s h1 h2
    rcases f₂ with _ | f₂'
    · omega
    · rcases h : findSub walletSep s with _ | i
      · simp only [splitWalletFuel, h]
      · simp only [splitWalletFuel, h]
        have hb := findSub_bound h
        rw [walletSep_length] at hb
        have hd := List.length_drop (i + 6) s
        congr 1
        exact ih (by omega) (by omega)

theorem splitWallet_eq_none {s : List Char}
    (h : findSub walletSep s = none) : splitWallet s = [s] := by
  unfold splitWallet
  simp only [splitWalletFuel, h]

theorem splitWallet_eq_some {s : List Char} {i : Nat}
    (h : findSub walletSep s = some i) :
    splitWallet s = s.take i :: splitWallet (s.drop (i + 6)) := by
  have hb := findSub_bound h
  rw [walletSep_length] at hb
  have hd := List.length_drop (i + 6) s
  show splitWalletFuel (s.length + 1) s = _
  simp only [splitWalletFuel, h]
  congr 1
  exact splitWalletFuel_congr s.length (by omega) (by omega)

theorem splitWallet_ne_nil (s : List Char) : splitWallet s ≠ [] := by
  rcases h : findSub walletSep s with _ | i
  · rw [splitWallet_eq_none h]
    simp
  · rw [splitWallet_eq_some h]
    simp

theorem getLastD_cons_of_ne_nil {α : Type} (x : α) {l : List α}
    (h : l ≠ []) (d : α) : (x :: l).getLastD d = l.getLastD d := by
  rcases l with _ | ⟨y, ys⟩
  · exact absurd rfl h
  · simp [List.getLastD_cons]

theorem occurrence_align {s a w : List Char} {i : Nat}
    (hs : s = a ++ (walletSep ++ w))
    (hocc : isPre walletSep (s.drop i) = true)
    (hle : i ≤ a.length) (hlt : a.length < i + 6) : i = a.length := by
  by_contra hne
  obtain ⟨t, ht⟩ := (isPre_iff _ _).1 hocc
  subst hs
  rw [List.drop_append_of_le_length hle] at ht
  set d := a.length - i with hdef
  have hd1 : 1 ≤ d := by omega
  have hd5 : d ≤ 5 := by omega
  have hlen : (a.drop i).length = d := by
    rw [List.length_drop]
  have e1 : (walletSep ++ t).drop d = walletSep.drop d ++ t :=
    List.drop_append_of_le_length (by rw [walletSep_length]; omega)
  have e2 : ((a.drop i) ++ (walletSep ++ w)).drop d = walletSep ++ w := by
    rw [← hlen, List.drop_left]
  have key1 : walletSep.drop d ++ t = walletSep ++ w := by
    rw [← e1, ht, e2]
  have e3 : (walletSep.drop d ++ t).take (6 - d) = walletSep.drop d := by
    rw [List.take_append_of_le_length
      (by rw [List.length_drop, walletSep_length])]
    exact List.take_of_length_le
      (by rw [List.length_drop, walletSep_length])
  have e4 : (walletSep ++ w).take (6 - d) = walletSep.take (6 - d) :=
    List.take_append_of_le_length (by rw [walletSep_length]; omega)
  have key2 : walletSep.drop d = walletSep.take (6 - d) := by
    rw [← e3, key1, e4]
  have hcase : d = 1 ∨ d = 2 ∨ d = 3 ∨ d = 4 ∨ d = 5 := by omega
  rcases hcase with h | h | h | h | h <;>
    (rw [h] at key2; exact absurd key2 (by decide))

theorem jsTrim_all_whitespace {w : List Char}
    (h : ∀ c ∈ w, c.isWhitespace = true) : jsTrim w = [] := by
  unfold jsTrim
  rw [List.dropWhile_eq_nil_iff.2 h]
  rfl

theorem findSub_whitespace_none {w : List Char}
    (h : ∀ c ∈ w, c.isWhitespace = true) : findSub walletSep w = none := by
  rcases hf : findSub walletSep w with _ | i
  · rfl
  · have h1 := findSub_isPre hf
    obtain ⟨t, ht⟩ := (isPre_iff _ _).1 h1
    have hw : 'w' ∈ w.drop i := by
      rw [← ht]
      exact List.mem_append_left _ (by decide)
    have hmem := (List.drop_sublist i w).mem hw
    have := h 'w' hmem
    exact absurd this (by decide)

theorem splitWallet_last_trim :
    ∀ (n : Nat) (s a w : List Char), s.length ≤ n →
      s = a ++ (walletSep ++ w) → (∀ c ∈ w, c.isWhitespace = true) →
      jsTrim ((splitWallet s).getLastD []) = [] := by
  intro n
  induction n with
  | zero =>
    intro s a w hs hdec _
    rw [hdec] at hs
    simp only [List.length_append, walletSep_length] at hs
    omega
  | succ n' ih =>
    intro s a w hs hdec hw
    have hocc : isPre walletSep (s.drop a.length) = true := by
      rw [hdec, List.drop_left]
      exact (isPre_iff _ _).2 ⟨w, rfl⟩
    obtain ⟨i, hi⟩ := findSub_isSome hocc
    have hmin : i ≤ a.length := findSub_min hi a.length hocc
    have hb := findSub_bound hi
    rw [walletSep_length] at hb
    rw [splitWallet_eq_some hi,
      getLastD_cons_of_ne_nil _ (splitWallet_ne_nil _)]
    by_cases hle : i + 6 ≤ a.length
    · have hdrop : s.drop (i + 6) = a.drop (i + 6) ++ (walletSep ++ w) := by
        rw [hdec]
        exact List.drop_append_of_le_length hle
      have hlen := List.length_drop (i + 6) s
      exact ih (s.drop (i + 6)) (a.drop (i + 6)) w (by omega) hdrop hw
    · have hial : i = a.length :=
        occurrence_align hdec (findSub_isPre hi) hmin (by omega)
      subst hial
      have hdrop : s.drop (a.length + 6) = w := by
        have h1 : a ++ (walletSep ++ w) = (a ++ walletSep) ++ w :=
          (List.append_assoc a walletSep w).symm
        have h2 : (a ++ walletSep).length = a.length + 6 := by
          rw [List.length_append, walletSep_length]
        rw [hdec, h1, ← h2, List.drop_left]
      rw [hdrop, splitWallet_eq_none (findSub_whitespace_none hw)]
      have hlast : ([w]).getLastD ([] : List Char) = w := rfl
      rw [hlast]
      exact jsTrim_all_whitespace hw

/-- C9: the derived `wallet` field after LedgerEntry construction — it
always equals the source computation on the normalized description; it is
`null` when the description is not a string, is the empty string, or
contains no occurrence of `"wallet"`; and when the description ends with
`"wallet"` followed only by whitespace, it is the empty string `""`
rather than `null`. -/
theorem c9_wallet_field :
    (∀ it : Item,
        lookupKey (ledgerDerive (normalizeItem ledgerFields it)) "wallet"
          = walletOf (lookupKey (normalizeItem ledgerFields it) "description"))
    ∧ (∀ v : Value, (∀ s : String, v ≠ Value.str s) → walletOf v = Value.null)
    ∧ walletOf (Value.str "") = Value.null
    ∧ (∀ s : String, (¬ ∃ a b : List Char, s.toList = a ++ (walletSep ++ b)) →
        walletOf (Value.str s) = Value.null)
    ∧ (∀ (s : String) (a w : List Char), s.toList = a ++ (walletSep ++ w) →
        (∀ c ∈ w, c.isWhitespace = true) →
        walletOf (Value.str s) = Value.str "") := by
  refine ⟨fun it => rfl, ?_, rfl, ?_, ?_⟩
  · intro v hv
    rcases v with _ | n | s
    · rfl
    · rfl
    · exact absurd rfl (hv s)
  · intro s hno
    show (if s.toList.isEmpty = true then Value.null
      else if (splitWallet s.toList).length > 1 then
        Value.str (jsTrim ((splitWallet s.toList).getLastD [])).asString
      else Value.null) = Value.null
    by_cases he : s.toList.isEmpty = true
    · rw [if_pos he]
    · rw [if_neg he]
      have hnone : findSub walletSep s.toList = none := by
        rcases hf : findSub walletSep s.toList with _ | i
        · rfl
        · obtain ⟨t, ht⟩ := (isPre_iff _ _).1 (findSub_isPre hf)
          exact absurd
            ⟨s.toList.take i, t, by rw [ht, List.take_append_drop]⟩ hno
      rw [if_neg (by rw [splitWallet_eq_none hnone]; simp)]
  · intro s a w hdec hw
    have he : ¬ (s.toList.isEmpty = true) := by
      rw [List.isEmpty_iff]
      intro hnil
      rw [hdec] at hnil
      have h6 := congrArg List.length hnil
      simp only [List.length_append, walletSep_length, List.length_nil] at h6
      omega
    have hocc : isPre walletSep (s.toList.drop a.length) = true := by
      rw [hdec, List.drop_left]
      exact (isPre_iff _ _).2 ⟨w, rfl⟩
    obtain ⟨i, hi⟩ := findSub_isSome hocc
    have hgt : (splitWallet s.toList).length > 1 := by
      rw [splitWallet_eq_some hi]
      have := List.length_pos.2 (splitWallet_ne_nil (s.toList.drop (i + 6)))
      simp only [List.length_cons]
      omega
    show (if s.toList.isEmpty = true then Value.null
      else if (splitWallet s.toList).length > 1 then
        Value.str (jsTrim ((splitWallet s.toList).getLastD [])).asString
      else Value.null) = Value.str ""
    rw [if_neg he, if_pos hgt,
      splitWallet_last_trim s.toList.length s.toList a w le_rfl hdec hw]
    rfl

/-- Witness for C9: a numeric description and a string without "wallet"
yield `wallet = null`; a description ending in "wallet" plus spaces
yields `wallet = ""`; and the construction-time wallet value agrees with
the derived computation on a concrete record. -/
theorem c9_wallet_witness :
    walletOf (Value.num 5) = Value.null
    ∧ walletOf (Value.str "abc") = Value.null
    ∧ walletOf (Value.str "exchange wallet   ") = Value.str ""
    ∧ lookupKey (ledgerDerive (normalizeItem ledgerFields
        (Item.obj [("description", Value.str "from wallet margin")]))) "wallet"
      = walletOf (Value.str "from wallet margin") := by
  refine ⟨?_, ?_, ?_, ?_⟩
  · exact c9_wallet_field.2.1 (Value.num 5) (fun s h => Value.noConfusion h)
  · apply c9_wallet_field.2.2.2.1 "abc"
    rintro ⟨a, b, h⟩
    have hlen := congrArg List.length h
    have h3 : ("abc".toList).length = 3 := rfl
    simp only [List.length_append, walletSep_length, h3] at hlen
    omega
  · exact c9_wallet_field.2.2.2.2 "exchange wallet   " ("exchange ".toList)
      [' ', ' ', ' '] (by decide) (by decide)
  · exact c9_wallet_field.1
      (Item.obj [("description", Value.str "from wallet margin")])

end Bfx
